import Mathlib

set_option linter.unusedSectionVars false

/-!
Verification of `OrderedByLookupDict` from `gdpc_lib/gdpc_doc/utils.py`.

The class is a Python `OrderedDict` subclass whose iteration order is
"least recently looked-up key first, most recently looked-up key last".
We embed its state as a `Cache`: an ordered association list `entries`
(least recently accessed entry at the head) together with the stored
`maxSize` (a Python `int`, hence `Int` here — the code never validates it,
so negative values are representable states).

The building blocks below each model one primitive used by the class:

* `lookup?`   — `OrderedDict.__getitem__` on the underlying dict
  (value of the first, and in a dict only, entry with the given key);
* `baseSet`   — `OrderedDict.__setitem__` via `super()`: replace the value
  in place when the key is present, otherwise append a new entry at the
  most-recently-used end;
* `eraseKey`  — `del self[key]`: remove the entry with the given key;
* `moveToEnd` — `OrderedDict.move_to_end(key)`: detach the entry and
  re-append it at the most-recently-used end (call sites only use it on
  present keys, so the absent branch is never exercised);
* `shrinkTo`  — the setter loop `while len(self) > maxSize: del oldest`,
  where `oldest = next(iter(self))` is the entry at the head.
-/

namespace GdpcLib

variable {K V : Type} [DecidableEq K]

/-- Iteration order of the keys: the first components of the entries, in order. -/
def keysOf : List (K × V) → List K
  | [] => []
  | e :: rest => e.1 :: keysOf rest

/-- `super().__getitem__(key)` — value stored for `k`, `none` when absent. -/
def lookup? (k : K) : List (K × V) → Option V
  | [] => none
  | e :: rest => if e.1 = k then some e.2 else lookup? k rest

/-- `super().__setitem__(key, value)` — plain dict assignment: replace the value
in place for a present key, otherwise append the new entry at the end. -/
def baseSet (k : K) (v : V) : List (K × V) → List (K × V)
  | [] => [(k, v)]
  | e :: rest => if e.1 = k then (k, v) :: rest else e :: baseSet k v rest

/-- `del self[key]` — remove the entry with key `k` (dict keys are unique, so
removing the first occurrence is removing the occurrence). -/
def eraseKey (k : K) : List (K × V) → List (K × V)
  | [] => []
  | e :: rest => if e.1 = k then rest else e :: eraseKey k rest

/-- `eraseKey` on the key list alone. -/
def eraseKeyL (k : K) : List K → List K
  | [] => []
  | x :: rest => if x = k then rest else x :: eraseKeyL k rest

/-- `self.move_to_end(key)` — re-append the entry for `k` at the
most-recently-used end. Both call sites guard on presence, so the `none`
branch (Python would raise `KeyError`) is modelled as the identity. -/
def moveToEnd (k : K) (l : List (K × V)) : List (K × V) :=
  match lookup? k l with
  | none => l
  | some v => eraseKey k l ++ [(k, v)]

/-- The maxSize-setter loop: `while len(self) > maxSize: del self[next(iter(self))]`.
Each iteration deletes the entry at the head (the least recently used one). -/
def shrinkTo (m : Int) : List (K × V) → List (K × V)
  | [] => []
  | e :: rest => if ((e :: rest).length : Int) > m then shrinkTo m rest else e :: rest

/-- State of an `OrderedByLookupDict`: the ordered entries (least recently
looked-up first) and the stored `_maxSize`. -/
structure Cache (K V : Type) where
  entries : List (K × V)
  maxSize : Int

deriving instance DecidableEq for Cache

/-- `len(self)`. -/
def Cache.size (c : Cache K V) : Nat := c.entries.length

/-- `key in self` — dict membership, inherited unchanged from `dict`;
it reads the key table and mutates nothing. -/
def Cache.contains (c : Cache K V) (k : K) : Bool := decide (k ∈ keysOf c.entries)

/-- `__getitem__`:
`value = super().__getitem__(key); self.move_to_end(key); return value`.
The `KeyError` of the first line (raised before any mutation) is the `none`
result; on success the returned state reflects the `move_to_end`. -/
def Cache.get (c : Cache K V) (k : K) : Option (V × Cache K V) :=
  match lookup? k c.entries with
  | none => none
  | some v => some (v, { c with entries := moveToEnd k c.entries })

/-- `__setitem__`:
`if key in self: self.move_to_end(key)`; then `super().__setitem__(key, value)`;
then `if self._maxSize > 0 and len(self) > self._maxSize: del self[next(iter(self))]`
(the deleted `oldest` entry is the head of the list). -/
def Cache.set (c : Cache K V) (k : K) (v : V) : Cache K V :=
  let l1 := if k ∈ keysOf c.entries then moveToEnd k c.entries else c.entries
  let l2 := baseSet k v l1
  let l3 := if 0 < c.maxSize ∧ c.maxSize < (l2.length : Int) then l2.tail else l2
  { c with entries := l3 }

/-- The `maxSize` property setter:
`self._maxSize = value; if self._maxSize > 0: while len(self) > self.maxSize: del oldest`. -/
def Cache.setMaxSize (c : Cache K V) (m : Int) : Cache K V :=
  { entries := if 0 < m then shrinkTo m c.entries else c.entries, maxSize := m }

/-- `__init__(maxSize, *args, **kwargs)`:
`super().__init__(*args, **kwargs)` runs first. On CPython,
`OrderedDict.__init__` dispatches each insertion of the supplied initial
contents through the overridden `__setitem__`, which reads `self._maxSize` —
not yet assigned, since `self._maxSize = maxSize` only runs afterwards — so
the very first initial entry raises `AttributeError` (`none` here) and no
cache is constructed. With no initial contents nothing is inserted, and the
direct field assignment `self._maxSize = maxSize` completes the construction;
the property setter and its eviction loop are never invoked, and `__init__`
contains no validation and no eviction of its own. -/
def Cache.init (m : Int) (contents : List (K × V)) : Option (Cache K V) :=
  match contents with
  | [] => some { entries := [], maxSize := m }
  | _ :: _ => none

/-- Fold a list of key/value pairs through `Cache.set`, in order. -/
def Cache.setMany (c : Cache K V) (ps : List (K × V)) : Cache K V :=
  ps.foldl (fun a p => a.set p.1 p.2) c

/-- One cache operation, for reasoning about call sequences. -/
inductive Op (K V : Type) where
  | get (k : K)
  | set (k : K) (v : V)
  | setMax (m : Int)
  | contains (k : K)
deriving DecidableEq

/-- The state after executing one operation. A failed `get` (absent key)
raises before any mutation, so it leaves the state unchanged; `contains`
is a pure dict-membership read and also leaves the state unchanged. -/
def Cache.step (c : Cache K V) : Op K V → Cache K V
  | Op.get k => match c.get k with
    | none => c
    | some p => p.2
  | Op.set k v => c.set k v
  | Op.setMax m => c.setMaxSize m
  | Op.contains _ => c

/-- Execute a sequence of operations from a starting state. -/
def Cache.run (c : Cache K V) (ops : List (Op K V)) : Cache K V :=
  ops.foldl Cache.step c

/-- `touches op k` holds when `op` is a `get` or a `set` of the key `k` —
the accesses that the recency order is about. -/
def touches : Op K V → K → Bool
  | Op.get k', k => decide (k' = k)
  | Op.set k' _, k => decide (k' = k)
  | Op.setMax _, _ => false
  | Op.contains _, _ => false

/-- `set` exactly as the specification words it: if the key is present its
value is replaced and the entry moves to the most-recently-accessed end,
otherwise a new entry is appended there; then, only when `capacity > 0` and
the size exceeds the capacity, the single entry at the least-recently-accessed
end is removed (at most one removal; capacity `0` never evicts). -/
def setSpec (c : Cache K V) (k : K) (v : V) : Cache K V :=
  let base := if k ∈ keysOf c.entries
    then eraseKey k c.entries ++ [(k, v)]
    else c.entries ++ [(k, v)]
  let final := if 0 < c.maxSize ∧ c.maxSize < (base.length : Int) then base.tail else base
  { entries := final, maxSize := c.maxSize }

/-- Order invariant for a pair of keys: either `b` occurs strictly before `a`
in the key list, or one of the two keys is absent. -/
def pairInvL (a b : K) (L : List K) : Prop :=
  List.Sublist [b, a] L ∨ b ∉ L ∨ a ∉ L

/-! ### Basic lemmas about the list-level primitives -/

@[simp] theorem keysOf_nil : keysOf ([] : List (K × V)) = [] := rfl

@[simp] theorem keysOf_cons (e : K × V) (l : List (K × V)) :
    keysOf (e :: l) = e.1 :: keysOf l := rfl

theorem keysOf_eq_map (l : List (K × V)) : keysOf l = l.map Prod.fst := by
  induction l with
  | nil => rfl
  | cons e rest ih => simp [ih]

@[simp] theorem keysOf_append (l₁ l₂ : List (K × V)) :
    keysOf (l₁ ++ l₂) = keysOf l₁ ++ keysOf l₂ := by
  simp [keysOf_eq_map]

@[simp] theorem length_keysOf (l : List (K × V)) : (keysOf l).length = l.length := by
  simp [keysOf_eq_map]

theorem keysOf_tail (l : List (K × V)) : keysOf l.tail = (keysOf l).tail := by
  cases l <;> rfl

theorem lookup?_eq_none_iff (k : K) (l : List (K × V)) :
    lookup? k l = none ↔ k ∉ keysOf l := by
  induction l with
  | nil => simp [lookup?]
  | cons e rest ih =>
    by_cases h : e.1 = k
    · simp [lookup?, h]
    · simp only [lookup?, if_neg h, keysOf_cons, List.mem_cons, ih]
      constructor
      · rintro hk (rfl | hm)
        · exact h rfl
        · exact hk hm
      · intro hk
        exact fun hm => hk (Or.inr hm)

theorem mem_keysOf_iff_lookup? (k : K) (l : List (K × V)) :
    k ∈ keysOf l ↔ ∃ v, lookup? k l = some v := by
  rw [← not_iff_not, ← lookup?_eq_none_iff]
  cases h : lookup? k l <;> simp [h]

theorem keysOf_eraseKey (k : K) (l : List (K × V)) :
    keysOf (eraseKey k l) = eraseKeyL k (keysOf l) := by
  induction l with
  | nil => rfl
  | cons e rest ih =>
    by_cases h : e.1 = k
    · simp only [eraseKey, eraseKeyL, keysOf_cons, if_pos h]
    · simp only [eraseKey, eraseKeyL, keysOf_cons, if_neg h, ih]

theorem eraseKeyL_sublist (k : K) (xs : List K) : List.Sublist (eraseKeyL k xs) xs := by
  induction xs with
  | nil => exact List.Sublist.refl _
  | cons x rest ih =>
    by_cases h : x = k
    · simp only [eraseKeyL, if_pos h]
      exact List.sublist_cons_self x rest
    · simp only [eraseKeyL, if_neg h]
      exact ih.cons₂ x

theorem mem_eraseKeyL_of (k x : K) (xs : List K) (hx : x ≠ k) (hm : x ∈ xs) :
    x ∈ eraseKeyL k xs := by
  induction xs with
  | nil => exact absurd hm (List.not_mem_nil x)
  | cons y rest ih =>
    by_cases h : y = k
    · simp only [eraseKeyL, if_pos h]
      rcases List.mem_cons.mp hm with rfl | hm'
      · exact absurd h hx
      · exact hm'
    · simp only [eraseKeyL, if_neg h]
      rcases List.mem_cons.mp hm with rfl | hm'
      · exact List.mem_cons_self _ _
      · exact List.mem_cons_of_mem _ (ih hm')

theorem mem_of_mem_eraseKeyL (k x : K) (xs : List K) (hm : x ∈ eraseKeyL k xs) :
    x ∈ xs :=
  (eraseKeyL_sublist k xs).subset hm

theorem not_mem_eraseKeyL_self (k : K) (xs : List K) (hn : xs.Nodup) :
    k ∉ eraseKeyL k xs := by
  induction xs with
  | nil => simp [eraseKeyL]
  | cons y rest ih =>
    by_cases h : y = k
    · simp only [eraseKeyL, if_pos h]
      subst h
      exact (List.nodup_cons.mp hn).1
    · simp only [eraseKeyL, if_neg h, List.mem_cons]
      rintro (rfl | hm)
      · exact h rfl
      · exact ih (List.nodup_cons.mp hn).2 hm

theorem sublist_eraseKeyL (k : K) (s xs : List K) (hs : List.Sublist s xs)
    (hk : ∀ y ∈ s, y ≠ k) : List.Sublist s (eraseKeyL k xs) := by
  induction xs generalizing s with
  | nil =>
    cases List.sublist_nil.mp hs
    exact List.Sublist.refl _
  | cons y rest ih =>
    by_cases h : y = k
    · simp only [eraseKeyL, if_pos h]
      cases hs with
      | cons _ hs' => exact hs'
      | cons₂ _ hs' =>
        exact absurd h (hk y (List.mem_cons_self _ _))
    · simp only [eraseKeyL, if_neg h]
      cases hs with
      | cons _ hs' => exact (ih _ hs' hk).cons y
      | cons₂ _ hs' =>
        exact (ih _ hs' fun z hz => hk z (List.mem_cons_of_mem _ hz)).cons₂ y

theorem length_eraseKey_of_mem (k : K) (l : List (K × V)) (hm : k ∈ keysOf l) :
    (eraseKey k l).length + 1 = l.length := by
  induction l with
  | nil => exact absurd hm (List.not_mem_nil k)
  | cons e rest ih =>
    by_cases h : e.1 = k
    · simp [eraseKey, h]
    · rcases List.mem_cons.mp hm with rfl | hm'
      · exact absurd rfl h
      · simp only [eraseKey, if_neg h, List.length_cons]
        rw [← ih hm']

theorem keysOf_baseSet_of_mem (k : K) (v : V) (l : List (K × V)) (hm : k ∈ keysOf l) :
    keysOf (baseSet k v l) = keysOf l := by
  induction l with
  | nil => exact absurd hm (List.not_mem_nil k)
  | cons e rest ih =>
    by_cases h : e.1 = k
    · simp [baseSet, h]
    · rcases List.mem_cons.mp hm with rfl | hm'
      · exact absurd rfl h
      · simp [baseSet, if_neg h, ih hm']

theorem baseSet_of_not_mem (k : K) (v : V) (l : List (K × V)) (hm : k ∉ keysOf l) :
    baseSet k v l = l ++ [(k, v)] := by
  induction l with
  | nil => rfl
  | cons e rest ih =>
    have h : ¬ e.1 = k := fun he => hm (by simp [he])
    have hm' : k ∉ keysOf rest := fun hk => hm (by simp [hk])
    simp [baseSet, if_neg h, ih hm']

theorem keysOf_baseSet_of_not_mem (k : K) (v : V) (l : List (K × V)) (hm : k ∉ keysOf l) :
    keysOf (baseSet k v l) = keysOf l ++ [k] := by
  rw [baseSet_of_not_mem k v l hm]
  simp

theorem baseSet_append_self (k : K) (v w : V) (l : List (K × V)) (hm : k ∉ keysOf l) :
    baseSet k v (l ++ [(k, w)]) = l ++ [(k, v)] := by
  induction l with
  | nil => simp [baseSet]
  | cons e rest ih =>
    have h : ¬ e.1 = k := fun he => hm (by simp [he])
    have hm' : k ∉ keysOf rest := fun hk => hm (by simp [hk])
    simp [baseSet, if_neg h, ih hm']

theorem length_baseSet_of_mem (k : K) (v : V) (l : List (K × V)) (hm : k ∈ keysOf l) :
    (baseSet k v l).length = l.length := by
  have := congrArg List.length (keysOf_baseSet_of_mem k v l hm)
  simpa using this

theorem mem_keysOf_baseSet_of_mem (x k : K) (v : V) (l : List (K × V))
    (hx : x ∈ keysOf l) : x ∈ keysOf (baseSet k v l) := by
  by_cases hm : k ∈ keysOf l
  · rw [keysOf_baseSet_of_mem k v l hm]; exact hx
  · rw [keysOf_baseSet_of_not_mem k v l hm]; exact List.mem_append_left _ hx

theorem mem_of_mem_keysOf_baseSet (x k : K) (v : V) (l : List (K × V))
    (hx : x ∈ keysOf (baseSet k v l)) : x ∈ keysOf l ∨ x = k := by
  by_cases hm : k ∈ keysOf l
  · rw [keysOf_baseSet_of_mem k v l hm] at hx; exact Or.inl hx
  · rw [keysOf_baseSet_of_not_mem k v l hm] at hx
    rcases List.mem_append.mp hx with h | h
    · exact Or.inl h
    · exact Or.inr (List.mem_singleton.mp h)

theorem moveToEnd_of_not_mem (k : K) (l : List (K × V)) (hm : k ∉ keysOf l) :
    moveToEnd k l = l := by
  have : lookup? k l = none := (lookup?_eq_none_iff k l).mpr hm
  simp [moveToEnd, this]

theorem moveToEnd_of_mem (k : K) (l : List (K × V)) (hm : k ∈ keysOf l) :
    ∃ v, lookup? k l = some v ∧ moveToEnd k l = eraseKey k l ++ [(k, v)] := by
  obtain ⟨v, hv⟩ := (mem_keysOf_iff_lookup? k l).mp hm
  exact ⟨v, hv, by simp [moveToEnd, hv]⟩

theorem keysOf_moveToEnd_of_mem (k : K) (l : List (K × V)) (hm : k ∈ keysOf l) :
    keysOf (moveToEnd k l) = eraseKeyL k (keysOf l) ++ [k] := by
  obtain ⟨v, _, he⟩ := moveToEnd_of_mem k l hm
  rw [he]
  simp [keysOf_eraseKey]

theorem length_moveToEnd_of_mem (k : K) (l : List (K × V)) (hm : k ∈ keysOf l) :
    (moveToEnd k l).length = l.length := by
  obtain ⟨v, _, he⟩ := moveToEnd_of_mem k l hm
  rw [he]
  have := length_eraseKey_of_mem k l hm
  simp
  omega

theorem mem_keysOf_moveToEnd_of_mem (x k : K) (l : List (K × V))
    (hx : x ∈ keysOf l) : x ∈ keysOf (moveToEnd k l) := by
  by_cases hm : k ∈ keysOf l
  · rw [keysOf_moveToEnd_of_mem k l hm]
    by_cases hxk : x = k
    · subst hxk; simp
    · exact List.mem_append_left _ (mem_eraseKeyL_of k x (keysOf l) hxk hx)
  · rw [moveToEnd_of_not_mem k l hm]; exact hx

theorem mem_of_mem_keysOf_moveToEnd (x k : K) (l : List (K × V))
    (hx : x ∈ keysOf (moveToEnd k l)) : x ∈ keysOf l := by
  by_cases hm : k ∈ keysOf l
  · rw [keysOf_moveToEnd_of_mem k l hm] at hx
    rcases List.mem_append.mp hx with h | h
    · exact mem_of_mem_eraseKeyL k x (keysOf l) h
    · rw [List.mem_singleton.mp h]; exact hm
  · rw [moveToEnd_of_not_mem k l hm] at hx; exact hx

theorem nodup_keysOf_baseSet (k : K) (v : V) (l : List (K × V))
    (hn : (keysOf l).Nodup) : (keysOf (baseSet k v l)).Nodup := by
  by_cases hm : k ∈ keysOf l
  · rw [keysOf_baseSet_of_mem k v l hm]; exact hn
  · rw [keysOf_baseSet_of_not_mem k v l hm]
    simp [List.nodup_append, hn]
    exact hm

theorem nodup_keysOf_moveToEnd (k : K) (l : List (K × V))
    (hn : (keysOf l).Nodup) : (keysOf (moveToEnd k l)).Nodup := by
  by_cases hm : k ∈ keysOf l
  · rw [keysOf_moveToEnd_of_mem k l hm]
    simp [List.nodup_append, List.Nodup.sublist (eraseKeyL_sublist k (keysOf l)) hn]
    exact not_mem_eraseKeyL_self k (keysOf l) hn
  · rw [moveToEnd_of_not_mem k l hm]; exact hn

theorem sublist_keysOf (l' l : List (K × V)) (h : List.Sublist l' l) :
    List.Sublist (keysOf l') (keysOf l) := by
  rw [keysOf_eq_map, keysOf_eq_map]
  exact h.map Prod.fst

theorem shrinkTo_sublist (m : Int) (l : List (K × V)) :
    List.Sublist (shrinkTo m l) l := by
  induction l with
  | nil => exact List.Sublist.refl _
  | cons e rest ih =>
    by_cases h : ((e :: rest).length : Int) > m
    · simp only [shrinkTo, if_pos h]
      exact ih.trans (List.sublist_cons_self e rest)
    · simp only [shrinkTo, if_neg h]
      exact List.Sublist.refl _

theorem shrinkTo_suffix (m : Int) (l : List (K × V)) :
    ∃ pre, pre ++ shrinkTo m l = l := by
  induction l with
  | nil => exact ⟨[], rfl⟩
  | cons e rest ih =>
    by_cases h : ((e :: rest).length : Int) > m
    · obtain ⟨pre, hp⟩ := ih
      exact ⟨e :: pre, by simp only [shrinkTo, if_pos h, List.cons_append, hp]⟩
    · exact ⟨[], by simp only [shrinkTo, if_neg h, List.nil_append]⟩

theorem length_shrinkTo (m : Int) (l : List (K × V)) (h0 : 0 < m) :
    (shrinkTo m l).length = min l.length m.toNat := by
  induction l with
  | nil => simp [shrinkTo]
  | cons e rest ih =>
    by_cases h : ((e :: rest).length : Int) > m
    · simp only [shrinkTo, if_pos h, ih]
      simp only [List.length_cons] at h ⊢
      omega
    · simp only [shrinkTo, if_neg h]
      simp only [List.length_cons] at h ⊢
      omega

/-! ### Cache-level lemmas -/

@[simp] theorem run_nil (c : Cache K V) : c.run [] = c := rfl

@[simp] theorem run_cons (c : Cache K V) (op : Op K V) (ops : List (Op K V)) :
    c.run (op :: ops) = (c.step op).run ops := rfl

theorem run_append (c : Cache K V) (l₁ l₂ : List (Op K V)) :
    c.run (l₁ ++ l₂) = (c.run l₁).run l₂ := by
  simp [Cache.run, List.foldl_append]

@[simp] theorem maxSize_set (c : Cache K V) (k : K) (v : V) :
    (c.set k v).maxSize = c.maxSize := rfl

@[simp] theorem entries_get_maxSize (c : Cache K V) (k : K) :
    (c.step (Op.get k)).maxSize = c.maxSize := by
  simp only [Cache.step, Cache.get]
  cases hl : lookup? k c.entries <;> simp

theorem set_eq_setSpec_of_nodup (c : Cache K V) (k : K) (v : V)
    (hn : (keysOf c.entries).Nodup) : c.set k v = setSpec c k v := by
  by_cases hm : k ∈ keysOf c.entries
  · obtain ⟨w, _, he⟩ := moveToEnd_of_mem k c.entries hm
    have hk : k ∉ keysOf (eraseKey k c.entries) := by
      rw [keysOf_eraseKey]
      exact not_mem_eraseKeyL_self k (keysOf c.entries) hn
    simp only [Cache.set, setSpec, if_pos hm, he, baseSet_append_self k v w _ hk]
  · simp only [Cache.set, setSpec, if_neg hm, baseSet_of_not_mem k v _ hm]

theorem nodup_step (c : Cache K V) (op : Op K V)
    (hn : (keysOf c.entries).Nodup) : (keysOf (c.step op).entries).Nodup := by
  cases op with
  | get k =>
    simp only [Cache.step, Cache.get]
    cases hl : lookup? k c.entries with
    | none => exact hn
    | some v => exact nodup_keysOf_moveToEnd k c.entries hn
  | set k v =>
    simp only [Cache.step, Cache.set]
    have h1 : (keysOf (if k ∈ keysOf c.entries then moveToEnd k c.entries
        else c.entries)).Nodup := by
      by_cases hm : k ∈ keysOf c.entries
      · rw [if_pos hm]; exact nodup_keysOf_moveToEnd k c.entries hn
      · rw [if_neg hm]; exact hn
    have h2 := nodup_keysOf_baseSet k v _ h1
    by_cases hc : 0 < c.maxSize ∧ c.maxSize <
        ((baseSet k v (if k ∈ keysOf c.entries then moveToEnd k c.entries
          else c.entries)).length : Int)
    · rw [if_pos hc]
      exact List.Nodup.sublist (sublist_keysOf _ _ (List.tail_sublist _)) h2
    · rw [if_neg hc]; exact h2
  | setMax m =>
    simp only [Cache.step, Cache.setMaxSize]
    by_cases hc : 0 < m
    · rw [if_pos hc]
      exact List.Nodup.sublist (sublist_keysOf _ _ (shrinkTo_sublist m c.entries)) hn
    · rw [if_neg hc]; exact hn
  | contains k => exact hn

theorem nodup_run (c : Cache K V) (ops : List (Op K V))
    (hn : (keysOf c.entries).Nodup) : (keysOf (c.run ops).entries).Nodup := by
  induction ops generalizing c with
  | nil => exact hn
  | cons op rest ih => exact ih (c.step op) (nodup_step c op hn)

theorem mem_keysOf_step (c : Cache K V) (op : Op K V) (x : K)
    (hx : x ∈ keysOf (c.step op).entries) :
    x ∈ keysOf c.entries ∨ touches op x = true := by
  cases op with
  | get k =>
    simp only [Cache.step, Cache.get] at hx
    cases hl : lookup? k c.entries with
    | none => rw [hl] at hx; exact Or.inl hx
    | some v =>
      rw [hl] at hx
      exact Or.inl (mem_of_mem_keysOf_moveToEnd x k c.entries hx)
  | set k v =>
    simp only [Cache.step, Cache.set] at hx
    have hx2 : x ∈ keysOf (baseSet k v (if k ∈ keysOf c.entries
        then moveToEnd k c.entries else c.entries)) := by
      by_cases hc : 0 < c.maxSize ∧ c.maxSize <
          ((baseSet k v (if k ∈ keysOf c.entries then moveToEnd k c.entries
            else c.entries)).length : Int)
      · rw [if_pos hc] at hx
        exact (sublist_keysOf _ _ (List.tail_sublist _)).subset hx
      · rw [if_neg hc] at hx; exact hx
    rcases mem_of_mem_keysOf_baseSet x k v _ hx2 with h | rfl
    · by_cases hm : k ∈ keysOf c.entries
      · rw [if_pos hm] at h
        exact Or.inl (mem_of_mem_keysOf_moveToEnd x k c.entries h)
      · rw [if_neg hm] at h; exact Or.inl h
    · exact Or.inr (by simp [touches])
  | setMax m =>
    simp only [Cache.step, Cache.setMaxSize] at hx
    by_cases hc : 0 < m
    · rw [if_pos hc] at hx
      exact Or.inl ((sublist_keysOf _ _ (shrinkTo_sublist m c.entries)).subset hx)
    · rw [if_neg hc] at hx; exact Or.inl hx
  | contains k => exact Or.inl hx

theorem not_mem_run (c : Cache K V) (ops : List (Op K V)) (x : K)
    (hops : ∀ op ∈ ops, touches op x = false)
    (hx : x ∉ keysOf c.entries) : x ∉ keysOf (c.run ops).entries := by
  induction ops generalizing c with
  | nil => exact hx
  | cons op rest ih =>
    refine ih (c.step op) (fun o ho => hops o (List.mem_cons_of_mem _ ho)) ?_
    intro hmem
    rcases mem_keysOf_step c op x hmem with h | h
    · exact hx h
    · rw [hops op (List.mem_cons_self _ _)] at h
      exact Bool.false_ne_true h

/-! ### Relative-order preservation -/

theorem pair_sublist_restrict (a b : K) (L' L : List K) (hs : List.Sublist L' L) :
    L.Nodup → b ∈ L' → a ∈ L' → List.Sublist [b, a] L → List.Sublist [b, a] L' := by
  induction hs with
  | slnil =>
    intro _ hb _ _
    exact absurd hb (List.not_mem_nil b)
  | cons x hs' ih =>
    intro hn hb ha hp
    have hx := (List.nodup_cons.mp hn).1
    have hn2 := (List.nodup_cons.mp hn).2
    refine ih hn2 hb ha ?_
    cases hp with
    | cons _ hp2 => exact hp2
    | cons₂ _ hp2 => exact absurd (hs'.subset hb) hx
  | cons₂ x hs' ih =>
    intro hn hb ha hp
    have hx := (List.nodup_cons.mp hn).1
    have hn2 := (List.nodup_cons.mp hn).2
    cases hp with
    | cons _ hp2 =>
      have hbx : b ≠ x := fun he => hx (by
        rw [← he]
        exact hp2.subset (List.mem_cons_self b [a]))
      have hax : a ≠ x := fun he => hx (by
        rw [← he]
        exact hp2.subset (List.mem_cons_of_mem b (List.mem_cons_self a [])))
      have hb2 := (List.mem_cons.mp hb).resolve_left hbx
      have ha2 := (List.mem_cons.mp ha).resolve_left hax
      exact (ih hn2 hb2 ha2 hp2).cons x
    | cons₂ _ hp2 =>
      have hab : a ≠ b := fun he => hx (by
        rw [← he]
        exact List.singleton_sublist.mp hp2)
      have ha2 := (List.mem_cons.mp ha).resolve_left hab
      exact (List.singleton_sublist.mpr ha2).cons₂ b

theorem pairInvL_of_sublist (a b : K) (L' L : List K) (hn : L.Nodup)
    (hs : List.Sublist L' L) (hp : pairInvL a b L) : pairInvL a b L' := by
  rcases hp with hp | hp | hp
  · by_cases hb : b ∈ L'
    · by_cases ha : a ∈ L'
      · exact Or.inl (pair_sublist_restrict a b L' L hs hn hb ha hp)
      · exact Or.inr (Or.inr ha)
    · exact Or.inr (Or.inl hb)
  · exact Or.inr (Or.inl (fun hm => hp (hs.subset hm)))
  · exact Or.inr (Or.inr (fun hm => hp (hs.subset hm)))

theorem pairInvL_append_right (a b : K) (L L₂ : List K)
    (hL₂b : b ∉ L₂) (hL₂a : a ∉ L₂) (hp : pairInvL a b L) : pairInvL a b (L ++ L₂) := by
  rcases hp with hp | hp | hp
  · exact Or.inl (hp.trans (List.sublist_append_left L L₂))
  · refine Or.inr (Or.inl ?_)
    intro hm
    rcases List.mem_append.mp hm with h | h
    · exact hp h
    · exact hL₂b h
  · refine Or.inr (Or.inr ?_)
    intro hm
    rcases List.mem_append.mp hm with h | h
    · exact hp h
    · exact hL₂a h

theorem pairInvL_eraseKeyL (a b k : K) (L : List K) (hka : k ≠ a) (hkb : k ≠ b)
    (hp : pairInvL a b L) : pairInvL a b (eraseKeyL k L) := by
  rcases hp with hp | hp | hp
  · refine Or.inl (sublist_eraseKeyL k [b, a] L hp ?_)
    intro y hy
    rcases List.mem_cons.mp hy with rfl | hy'
    · exact fun he => hkb he.symm
    · rw [List.mem_singleton.mp hy']
      exact fun he => hka he.symm
  · exact Or.inr (Or.inl (fun hm => hp (mem_of_mem_eraseKeyL k b L hm)))
  · exact Or.inr (Or.inr (fun hm => hp (mem_of_mem_eraseKeyL k a L hm)))

theorem step_touch_last (c : Cache K V) (op : Op K V) (a : K)
    (ht : touches op a = true) (ha : a ∈ keysOf (c.step op).entries) :
    ∃ L, keysOf (c.step op).entries = L ++ [a] := by
  cases op with
  | get k =>
    have hk : k = a := of_decide_eq_true ht
    subst hk
    cases hl : lookup? k c.entries with
    | none =>
      simp only [Cache.step, Cache.get, hl] at ha ⊢
      exact absurd ha ((lookup?_eq_none_iff k c.entries).mp hl)
    | some v =>
      simp only [Cache.step, Cache.get, hl] at ha ⊢
      have hm : k ∈ keysOf c.entries := (mem_keysOf_iff_lookup? k c.entries).mpr ⟨v, hl⟩
      exact ⟨eraseKeyL k (keysOf c.entries), keysOf_moveToEnd_of_mem k c.entries hm⟩
  | set k v =>
    have hk : k = a := of_decide_eq_true ht
    subst hk
    have hbase : ∃ L0, keysOf (baseSet k v (if k ∈ keysOf c.entries
        then moveToEnd k c.entries else c.entries)) = L0 ++ [k] := by
      by_cases hm : k ∈ keysOf c.entries
      · rw [if_pos hm]
        have h1 := keysOf_moveToEnd_of_mem k c.entries hm
        have hmem : k ∈ keysOf (moveToEnd k c.entries) := by rw [h1]; simp
        rw [keysOf_baseSet_of_mem k v _ hmem, h1]
        exact ⟨_, rfl⟩
      · rw [if_neg hm, keysOf_baseSet_of_not_mem k v _ hm]
        exact ⟨_, rfl⟩
    obtain ⟨L0, hL0⟩ := hbase
    simp only [Cache.step, Cache.set] at ha ⊢
    by_cases hc : 0 < c.maxSize ∧ c.maxSize < ((baseSet k v (if k ∈ keysOf c.entries
        then moveToEnd k c.entries else c.entries)).length : Int)
    · rw [if_pos hc] at ha ⊢
      rw [keysOf_tail, hL0] at ha ⊢
      cases L0 with
      | nil => simp at ha
      | cons x L0' => exact ⟨L0', by simp⟩
    · rw [if_neg hc] at ha ⊢
      exact ⟨L0, hL0⟩
  | setMax m => simp [touches] at ht
  | contains k => simp [touches] at ht

theorem step_preserves_pairInv (c : Cache K V) (op : Op K V) (a b : K)
    (hn : (keysOf c.entries).Nodup)
    (hta : touches op a = false) (htb : touches op b = false)
    (hp : pairInvL a b (keysOf c.entries)) :
    pairInvL a b (keysOf (c.step op).entries) := by
  cases op with
  | get k =>
    have hka : ¬ (k = a) := by simpa [touches] using hta
    have hkb : ¬ (k = b) := by simpa [touches] using htb
    cases hl : lookup? k c.entries with
    | none => simpa [Cache.step, Cache.get, hl] using hp
    | some v =>
      have hm : k ∈ keysOf c.entries := (mem_keysOf_iff_lookup? k c.entries).mpr ⟨v, hl⟩
      simp only [Cache.step, Cache.get, hl]
      rw [keysOf_moveToEnd_of_mem k c.entries hm]
      refine pairInvL_append_right a b _ [k] ?_ ?_ (pairInvL_eraseKeyL a b k _ hka hkb hp)
      · exact fun hmem => hkb (List.mem_singleton.mp hmem).symm
      · exact fun hmem => hka (List.mem_singleton.mp hmem).symm
  | set k v =>
    have hka : ¬ (k = a) := by simpa [touches] using hta
    have hkb : ¬ (k = b) := by simpa [touches] using htb
    have hn1 : (keysOf (if k ∈ keysOf c.entries then moveToEnd k c.entries
        else c.entries)).Nodup := by
      by_cases hm : k ∈ keysOf c.entries
      · rw [if_pos hm]; exact nodup_keysOf_moveToEnd k c.entries hn
      · rw [if_neg hm]; exact hn
    have hn2 := nodup_keysOf_baseSet k v _ hn1
    have hp2 : pairInvL a b (keysOf (baseSet k v (if k ∈ keysOf c.entries
        then moveToEnd k c.entries else c.entries))) := by
      by_cases hm : k ∈ keysOf c.entries
      · rw [if_pos hm]
        have h1 := keysOf_moveToEnd_of_mem k c.entries hm
        have hmem : k ∈ keysOf (moveToEnd k c.entries) := by rw [h1]; simp
        rw [keysOf_baseSet_of_mem k v _ hmem, h1]
        refine pairInvL_append_right a b _ [k] ?_ ?_ (pairInvL_eraseKeyL a b k _ hka hkb hp)
        · exact fun hmem2 => hkb (List.mem_singleton.mp hmem2).symm
        · exact fun hmem2 => hka (List.mem_singleton.mp hmem2).symm
      · rw [if_neg hm, keysOf_baseSet_of_not_mem k v _ hm]
        refine pairInvL_append_right a b _ [k] ?_ ?_ hp
        · exact fun hmem2 => hkb (List.mem_singleton.mp hmem2).symm
        · exact fun hmem2 => hka (List.mem_singleton.mp hmem2).symm
    simp only [Cache.step, Cache.set]
    by_cases hc : 0 < c.maxSize ∧ c.maxSize < ((baseSet k v (if k ∈ keysOf c.entries
        then moveToEnd k c.entries else c.entries)).length : Int)
    · rw [if_pos hc]
      exact pairInvL_of_sublist a b _ _ hn2
        (sublist_keysOf _ _ (List.tail_sublist _)) hp2
    · rw [if_neg hc]
      exact hp2
  | setMax m =>
    simp only [Cache.step, Cache.setMaxSize]
    by_cases hc : 0 < m
    · rw [if_pos hc]
      exact pairInvL_of_sublist a b _ _ hn
        (sublist_keysOf _ _ (shrinkTo_sublist m c.entries)) hp
    · rw [if_neg hc]
      exact hp
  | contains k => exact hp

theorem run_preserves_pairInv (c : Cache K V) (ops : List (Op K V)) (a b : K)
    (hn : (keysOf c.entries).Nodup)
    (hta : ∀ op ∈ ops, touches op a = false)
    (htb : ∀ op ∈ ops, touches op b = false)
    (hp : pairInvL a b (keysOf c.entries)) :
    pairInvL a b (keysOf (c.run ops).entries) := by
  induction ops generalizing c with
  | nil => exact hp
  | cons op rest ih =>
    refine ih (c.step op) (nodup_step c op hn)
      (fun o ho => hta o (List.mem_cons_of_mem _ ho))
      (fun o ho => htb o (List.mem_cons_of_mem _ ho))
      (step_preserves_pairInv c op a b hn
        (hta op (List.mem_cons_self _ _)) (htb op (List.mem_cons_self _ _)) hp)

theorem size_set_le (c : Cache K V) (k : K) (v : V)
    (hm : 0 < c.maxSize) (hs : (c.size : Int) ≤ c.maxSize) :
    ((c.set k v).size : Int) ≤ c.maxSize := by
  have hl2 : (baseSet k v (if k ∈ keysOf c.entries then moveToEnd k c.entries
      else c.entries)).length ≤ c.entries.length + 1 := by
    by_cases hm2 : k ∈ keysOf c.entries
    · rw [if_pos hm2]
      have hmm : k ∈ keysOf (moveToEnd k c.entries) := by
        rw [keysOf_moveToEnd_of_mem k c.entries hm2]
        simp
      rw [length_baseSet_of_mem k v _ hmm, length_moveToEnd_of_mem k c.entries hm2]
      omega
    · rw [if_neg hm2, baseSet_of_not_mem k v _ hm2]
      simp
  simp only [Cache.set, Cache.size] at hs ⊢
  by_cases hc : 0 < c.maxSize ∧ c.maxSize < ((baseSet k v (if k ∈ keysOf c.entries
      then moveToEnd k c.entries else c.entries)).length : Int)
  · rw [if_pos hc]
    obtain ⟨hc1, hc2⟩ := hc
    rw [List.length_tail]
    omega
  · rw [if_neg hc]
    have h2 : ¬ (c.maxSize < ((baseSet k v (if k ∈ keysOf c.entries
        then moveToEnd k c.entries else c.entries)).length : Int)) :=
      fun hl => hc ⟨hm, hl⟩
    omega

theorem maxSize_setMany (c : Cache K V) (ps : List (K × V)) :
    (c.setMany ps).maxSize = c.maxSize := by
  induction ps generalizing c with
  | nil => rfl
  | cons p rest ih =>
    have h1 : c.setMany (p :: rest) = (c.set p.1 p.2).setMany rest := rfl
    rw [h1, ih, maxSize_set]

theorem size_setMany_le (c : Cache K V) (ps : List (K × V))
    (hm : 0 < c.maxSize) (hs : (c.size : Int) ≤ c.maxSize) :
    ((c.setMany ps).size : Int) ≤ c.maxSize := by
  induction ps generalizing c with
  | nil => exact hs
  | cons p rest ih =>
    have h1 : c.setMany (p :: rest) = (c.set p.1 p.2).setMany rest := rfl
    rw [h1]
    have h2 := ih (c.set p.1 p.2)
    rw [maxSize_set] at h2
    exact h2 hm (size_set_le c p.1 p.2 hm hs)

theorem mem_keysOf_set_of_nonpos (c : Cache K V) (k : K) (v : V)
    (hm : c.maxSize ≤ 0) (x : K) (hx : x ∈ keysOf c.entries) :
    x ∈ keysOf (c.set k v).entries := by
  simp only [Cache.set]
  have hguard : ¬(0 < c.maxSize ∧ c.maxSize < ((baseSet k v (if k ∈ keysOf c.entries
      then moveToEnd k c.entries else c.entries)).length : Int)) :=
    fun hcon => absurd hcon.1 (by omega)
  rw [if_neg hguard]
  apply mem_keysOf_baseSet_of_mem
  by_cases hmem : k ∈ keysOf c.entries
  · rw [if_pos hmem]
    exact mem_keysOf_moveToEnd_of_mem x k c.entries hx
  · rw [if_neg hmem]
    exact hx

theorem mem_keysOf_setMany_of_nonpos (c : Cache K V) (ps : List (K × V))
    (hm : c.maxSize ≤ 0) (x : K) (hx : x ∈ keysOf c.entries) :
    x ∈ keysOf (c.setMany ps).entries := by
  induction ps generalizing c with
  | nil => exact hx
  | cons p rest ih =>
    have h1 : c.setMany (p :: rest) = (c.set p.1 p.2).setMany rest := rfl
    rw [h1]
    exact ih (c.set p.1 p.2) (by rw [maxSize_set]; exact hm)
      (mem_keysOf_set_of_nonpos c p.1 p.2 hm x hx)

theorem lookup?_eraseKey_ne (x k : K) (l : List (K × V)) (hx : x ≠ k) :
    lookup? x (eraseKey k l) = lookup? x l := by
  induction l with
  | nil => rfl
  | cons e rest ih =>
    by_cases hek : e.1 = k
    · have hne : ¬ e.1 = x := fun he => hx (he ▸ hek)
      simp only [eraseKey, if_pos hek, lookup?, if_neg hne]
    · simp only [eraseKey, if_neg hek, lookup?, ih]

theorem lookup?_append_last_ne (x k : K) (v : V) (l : List (K × V)) (hx : x ≠ k) :
    lookup? x (l ++ [(k, v)]) = lookup? x l := by
  induction l with
  | nil =>
    have hne : ¬ k = x := fun he => hx he.symm
    simp only [List.nil_append, lookup?, if_neg hne]
  | cons e rest ih =>
    by_cases he : e.1 = x
    · simp only [List.cons_append, lookup?, if_pos he]
    · simp only [List.cons_append, lookup?, if_neg he, List.append_eq, ih]

/-! ### Claim theorems -/

/-- Claim C3: every successful `get` or `set` of a key leaves that key at the
most-recently-accessed end (first conjunct); and for any run of operations in
which key `a` is accessed (via `get` or `set`) strictly after key `b` — `opA`
is the last access of `a`, every access of `b` lies strictly before it, in
`pre` — if both keys are still present at the end, then `a` appears after `b`
in iteration order (second conjunct). -/
theorem recency_order :
    (∀ (c : Cache K V) (op : Op K V) (k : K),
      touches op k = true → k ∈ keysOf (c.step op).entries →
      ∃ L, keysOf (c.step op).entries = L ++ [k]) ∧
    (∀ (c0 : Cache K V) (pre post : List (Op K V)) (opA : Op K V) (a b : K),
      (keysOf c0.entries).Nodup → a ≠ b →
      touches opA a = true →
      (∀ op ∈ post, touches op a = false) →
      (∀ op ∈ post, touches op b = false) →
      (∃ op ∈ pre, touches op b = true) →
      a ∈ keysOf (c0.run (pre ++ opA :: post)).entries →
      b ∈ keysOf (c0.run (pre ++ opA :: post)).entries →
      List.Sublist [b, a] (keysOf (c0.run (pre ++ opA :: post)).entries)) := by
  constructor
  · exact fun c op k ht ha => step_touch_last c op k ht ha
  · intro c0 pre post opA a b hn hab htA hpostA hpostB _ ha hb
    rw [run_append, run_cons] at ha hb ⊢
    have hn1 : (keysOf ((c0.run pre).step opA).entries).Nodup :=
      nodup_step _ _ (nodup_run c0 pre hn)
    have ha1 : a ∈ keysOf ((c0.run pre).step opA).entries := by
      by_contra hcontra
      exact not_mem_run _ post a hpostA hcontra ha
    have hb1 : b ∈ keysOf ((c0.run pre).step opA).entries := by
      by_contra hcontra
      exact not_mem_run _ post b hpostB hcontra hb
    obtain ⟨L, hL⟩ := step_touch_last (c0.run pre) opA a htA ha1
    have hbL : b ∈ L := by
      rw [hL] at hb1
      rcases List.mem_append.mp hb1 with h | h
      · exact h
      · exact absurd (List.mem_singleton.mp h) (Ne.symm hab)
    have hp1 : pairInvL a b (keysOf ((c0.run pre).step opA).entries) := by
      refine Or.inl ?_
      rw [hL]
      exact (List.singleton_sublist.mpr hbL).append (List.Sublist.refl [a])
    rcases run_preserves_pairInv _ post a b hn1 hpostA hpostB hp1 with h | h | h
    · exact h
    · exact absurd hb h
    · exact absurd ha h

/-- Concrete instance of claim C3, following the specification's read-refresh
scenario: capacity 2, insert keys 10 then 20, `get 10`, insert 30 — key 20 is
evicted and 10 appears before 30 in the final iteration order. -/
theorem recency_order_witness :
    (∃ L, keysOf (((⟨[(10, 1), (20, 2)], 2⟩ : Cache Nat Nat).step
        (Op.get 10)).entries) = L ++ [10]) ∧
    List.Sublist [10, 30] (keysOf (((⟨[], 2⟩ : Cache Nat Nat).run
      ([Op.set 10 1, Op.set 20 2, Op.get 10] ++ Op.set 30 3 :: [])).entries)) := by
  constructor
  · exact recency_order.1 ⟨[(10, 1), (20, 2)], 2⟩ (Op.get 10) 10 (by decide) (by decide)
  · exact recency_order.2 ⟨[], 2⟩ [Op.set 10 1, Op.set 20 2, Op.get 10] []
      (Op.set 30 3) 30 10 (by decide) (by decide) (by decide) (by decide)
      (by decide) (by decide) (by decide) (by decide)

/-- Claim C1: capacity bound invariant — if `0 < capacity` and `size ≤ capacity`,
then after one `set` call the size is still at most the capacity (first
conjunct), and hence after every call of any sequence of `set` calls (second
conjunct, every prefix of the sequence). -/
theorem capacity_bound :
    (∀ (c : Cache K V) (k : K) (v : V), 0 < c.maxSize → (c.size : Int) ≤ c.maxSize →
      ((c.set k v).size : Int) ≤ c.maxSize) ∧
    (∀ (c : Cache K V) (ps : List (K × V)) (n : Nat), 0 < c.maxSize →
      (c.size : Int) ≤ c.maxSize → ((c.setMany (ps.take n)).size : Int) ≤ c.maxSize) := by
  constructor
  · exact fun c k v hm hs => size_set_le c k v hm hs
  · exact fun c ps n hm hs => size_setMany_le c (ps.take n) hm hs

/-- Concrete instance of claim C1: a full cache of capacity 1 stays within
capacity after one `set` and after each call of a two-`set` sequence. -/
theorem capacity_bound_witness :
    (((⟨[(1, 1)], 1⟩ : Cache Nat Nat).set 2 5).size : Int) ≤ 1 ∧
    (((⟨[(1, 1)], 1⟩ : Cache Nat Nat).setMany ([(2, 5), (3, 6)].take 2)).size : Int) ≤ 1 :=
  ⟨capacity_bound.1 ⟨[(1, 1)], 1⟩ 2 5 (by decide) (by decide),
   capacity_bound.2 ⟨[(1, 1)], 1⟩ [(2, 5), (3, 6)] 2 (by decide) (by decide)⟩

/-- Claim C2: `set` behaves exactly as specified — replace-and-move-to-end for
a present key, append for a new key, then at most one eviction of the oldest
entry, only when `0 < capacity < size` (first conjunct, as an equality with
the specification-level `setSpec`); and with capacity 0 no insertion ever
evicts any present entry (second conjunct). -/
theorem set_matches_setSpec :
    (∀ (c : Cache K V) (k : K) (v : V), (keysOf c.entries).Nodup →
      c.set k v = setSpec c k v) ∧
    (∀ (c : Cache K V) (k : K) (v : V), c.maxSize = 0 →
      ∀ x ∈ keysOf c.entries, x ∈ keysOf (c.set k v).entries) := by
  constructor
  · exact fun c k v hn => set_eq_setSpec_of_nodup c k v hn
  · exact fun c k v h0 x hx => mem_keysOf_set_of_nonpos c k v (by omega) x hx

/-- Concrete instance of claim C2: updating a present key with capacity 0
matches the specification-level result, and keys survive insertion at
capacity 0. -/
theorem set_matches_setSpec_witness :
    (⟨[(1, 5)], 0⟩ : Cache Nat Nat).set 1 7 = setSpec ⟨[(1, 5)], 0⟩ 1 7 ∧
    2 ∈ keysOf ((⟨[(2, 4)], 0⟩ : Cache Nat Nat).set 9 9).entries :=
  ⟨set_matches_setSpec.1 ⟨[(1, 5)], 0⟩ 1 7 (by decide),
   set_matches_setSpec.2 ⟨[(2, 4)], 0⟩ 9 9 (by decide) 2 (by decide)⟩

/-- Claim C4: `setCapacity` stores the new capacity; for a positive new
capacity the surviving entries are a suffix of the old entries (so the
relative recency order is unchanged) of length `min size newCapacity`
(eviction from the least-recently-accessed end until the size fits); for new
capacity 0 the entries are untouched. -/
theorem setMaxSize_semantics :
    ∀ (c : Cache K V) (m : Int),
      ((c.setMaxSize m).maxSize = m) ∧
      (0 < m → ∃ pre, pre ++ (c.setMaxSize m).entries = c.entries ∧
        (c.setMaxSize m).size = min c.size m.toNat) ∧
      (m = 0 → (c.setMaxSize m).entries = c.entries) := by
  intro c m
  refine ⟨rfl, ?_, ?_⟩
  · intro hm
    simp only [Cache.setMaxSize, Cache.size, if_pos hm]
    obtain ⟨pre, hp⟩ := shrinkTo_suffix m c.entries
    exact ⟨pre, hp, length_shrinkTo m c.entries hm⟩
  · intro h0
    subst h0
    simp [Cache.setMaxSize]

/-- Concrete instance of claim C4: the capacity-shrink scenario — a cache
holding keys 1, 2, 3 (in that recency order) with capacity 3 holds only
key 3 after `setCapacity(1)`; `setCapacity(0)` leaves entries untouched. -/
theorem setMaxSize_semantics_witness :
    ((⟨[(1, 10), (2, 20), (3, 30)], 3⟩ : Cache Nat Nat).setMaxSize 1).entries = [(3, 30)] ∧
    (∃ pre, pre ++ ((⟨[(1, 10), (2, 20), (3, 30)], 3⟩ : Cache Nat Nat).setMaxSize 1).entries
        = [(1, 10), (2, 20), (3, 30)] ∧
      ((⟨[(1, 10), (2, 20), (3, 30)], 3⟩ : Cache Nat Nat).setMaxSize 1).size = min 3 1) ∧
    ((⟨[(5, 5)], 2⟩ : Cache Nat Nat).setMaxSize 0).entries = [(5, 5)] := by
  refine ⟨by decide, ?_, ?_⟩
  · exact (setMaxSize_semantics ⟨[(1, 10), (2, 20), (3, 30)], 3⟩ 1).2.1 (by decide)
  · exact (setMaxSize_semantics ⟨[(5, 5)], 2⟩ 0).2.2 (by decide)

/-- Claim C5 is false on the code: there is no negative-capacity validation.
`setCapacity(-1)` on a concrete cache does not reject — it changes the state
(the stored capacity becomes -1) — and construction with capacity -1 (and no
initial contents) returns a cache carrying that capacity instead of failing. -/
theorem negative_capacity_not_rejected :
    (⟨[(0, 0)], 2⟩ : Cache Nat Nat).setMaxSize (-1) ≠ (⟨[(0, 0)], 2⟩ : Cache Nat Nat) ∧
    Cache.init (-1) ([] : List (Nat × Nat)) = some ⟨[], -1⟩ := by
  constructor
  · decide
  · decide

/-- Claim C5 amended: a negative capacity is never rejected — construction
with a negative capacity and no initial contents succeeds and stores it,
`setCapacity` with a negative value succeeds, stores it and evicts nothing,
and with a negative stored capacity no `set` call evicts a present entry
(the eviction branch requires a capacity strictly above 0). -/
theorem negative_capacity_accepted :
    ∀ (m : Int), m < 0 →
      (Cache.init m ([] : List (K × V)) = some ⟨[], m⟩) ∧
      (∀ (c : Cache K V), (c.setMaxSize m).entries = c.entries ∧
        (c.setMaxSize m).maxSize = m) ∧
      (∀ (c : Cache K V), c.maxSize = m → ∀ (k : K) (v : V) (x : K),
        x ∈ keysOf c.entries → x ∈ keysOf (c.set k v).entries) := by
  intro m hm
  refine ⟨rfl, fun c => ⟨?_, rfl⟩, fun c hc k v x hx => ?_⟩
  · simp only [Cache.setMaxSize]
    rw [if_neg (by omega)]
  · exact mem_keysOf_set_of_nonpos c k v (by omega) x hx

/-- Concrete instance of the amended claim C5 at capacity -1. -/
theorem negative_capacity_accepted_witness :
    Cache.init (-1) ([] : List (Nat × Nat)) = some ⟨[], -1⟩ ∧
    ((⟨[(0, 0)], 2⟩ : Cache Nat Nat).setMaxSize (-1)).entries = [(0, 0)] ∧
    ((⟨[(0, 0)], 2⟩ : Cache Nat Nat).setMaxSize (-1)).maxSize = -1 ∧
    5 ∈ keysOf ((⟨[(5, 5)], -1⟩ : Cache Nat Nat).set 6 6).entries :=
  ⟨(negative_capacity_accepted (-1) (by decide)).1,
   ((negative_capacity_accepted (-1) (by decide)).2.1 ⟨[(0, 0)], 2⟩).1,
   ((negative_capacity_accepted (-1) (by decide)).2.1 ⟨[(0, 0)], 2⟩).2,
   (negative_capacity_accepted (-1) (by decide)).2.2 ⟨[(5, 5)], -1⟩ (by decide)
     6 6 5 (by decide)⟩

/-- Claim C6: `get` fails exactly when the key is absent; on failure the whole
state is unchanged (the failure is raised before any mutation, so no eviction
and no reordering); on success it returns the stored value and the only state
change is moving the key to the most-recently-accessed end. -/
theorem get_semantics :
    ∀ (c : Cache K V) (k : K),
      (c.get k = none ↔ k ∉ keysOf c.entries) ∧
      (c.get k = none → c.step (Op.get k) = c) ∧
      (∀ v, lookup? k c.entries = some v →
        c.get k = some (v, ⟨eraseKey k c.entries ++ [(k, v)], c.maxSize⟩)) := by
  intro c k
  refine ⟨?_, ?_, ?_⟩
  · cases hl : lookup? k c.entries with
    | none =>
      have hk := (lookup?_eq_none_iff k c.entries).mp hl
      simp [Cache.get, hl, hk]
    | some v =>
      have hk := (mem_keysOf_iff_lookup? k c.entries).mpr ⟨v, hl⟩
      simp [Cache.get, hl, hk]
  · intro h
    simp [Cache.step, h]
  · intro v hv
    simp [Cache.get, hv, moveToEnd]

/-- Concrete instance of claim C6: a lookup of the absent key 9 fails and
leaves the state unchanged; a lookup of key 1 returns its value and only
moves it to the end. -/
theorem get_semantics_witness :
    ((⟨[(1, 5), (2, 6)], 3⟩ : Cache Nat Nat).get 9 = none ↔
      9 ∉ keysOf ([(1, 5), (2, 6)] : List (Nat × Nat))) ∧
    (⟨[(1, 5), (2, 6)], 3⟩ : Cache Nat Nat).step (Op.get 9) = ⟨[(1, 5), (2, 6)], 3⟩ ∧
    (⟨[(1, 5), (2, 6)], 3⟩ : Cache Nat Nat).get 1 = some (5, ⟨[(2, 6), (1, 5)], 3⟩) := by
  refine ⟨(get_semantics ⟨[(1, 5), (2, 6)], 3⟩ 9).1, ?_, ?_⟩
  · exact (get_semantics ⟨[(1, 5), (2, 6)], 3⟩ 9).2.1 (by decide)
  · exact (get_semantics ⟨[(1, 5), (2, 6)], 3⟩ 1).2.2 5 (by decide)

/-- Claim C8: `contains` is pure — it returns exactly whether the key is
present, and executing it changes nothing: dropping it from any call sequence
gives the same final state, and its step keeps size and entries (hence the
iteration order, and no eviction). -/
theorem contains_pure :
    ∀ (c : Cache K V) (k : K) (ops : List (Op K V)),
      (c.contains k = true ↔ k ∈ keysOf c.entries) ∧
      (c.run (Op.contains k :: ops) = c.run ops) ∧
      ((c.step (Op.contains k)).size = c.size) ∧
      ((c.step (Op.contains k)).entries = c.entries) := by
  intro c k ops
  refine ⟨?_, rfl, rfl, rfl⟩
  simp [Cache.contains]

/-- Claim C9: a negative capacity behaves as unbounded — construction with a
negative capacity succeeds (with no initial contents) and stores it, and a
negative capacity never causes a construction failure (whether construction
completes is independent of the capacity value: nonempty initial contents
fail for every capacity alike); assigning it via the capacity setter succeeds
and evicts nothing; and no subsequent sequence of `set` calls ever evicts a
present entry (the eviction branch requires a capacity strictly above 0). -/
theorem negative_maxSize_unbounded :
    ∀ (m : Int), m < 0 →
      (Cache.init m ([] : List (K × V)) = some ⟨[], m⟩) ∧
      (∀ (l : List (K × V)) (m' : Int), (Cache.init m l).isSome = (Cache.init m' l).isSome) ∧
      (∀ (c : Cache K V), (c.setMaxSize m).entries = c.entries) ∧
      (∀ (c : Cache K V), c.maxSize = m → ∀ (ps : List (K × V)) (x : K),
        x ∈ keysOf c.entries → x ∈ keysOf (c.setMany ps).entries) := by
  intro m hm
  refine ⟨rfl, fun l m' => ?_, fun c => ?_, fun c hc ps x hx => ?_⟩
  · cases l <;> rfl
  · simp only [Cache.setMaxSize]
    rw [if_neg (by omega)]
  · exact mem_keysOf_setMany_of_nonpos c ps (by omega) x hx

/-- Concrete instance of claim C9 at capacity -2: construction without
contents succeeds storing -2, construction outcome is capacity-independent,
the setter evicts nothing, and three insertions into a one-entry cache evict
nothing. -/
theorem negative_maxSize_unbounded_witness :
    Cache.init (-2) ([] : List (Nat × Nat)) = some ⟨[], -2⟩ ∧
    (Cache.init (-2) ([(7, 7)] : List (Nat × Nat))).isSome =
      (Cache.init 3 ([(7, 7)] : List (Nat × Nat))).isSome ∧
    ((⟨[(1, 1), (2, 2)], 5⟩ : Cache Nat Nat).setMaxSize (-2)).entries = [(1, 1), (2, 2)] ∧
    1 ∈ keysOf ((⟨[(1, 1)], -2⟩ : Cache Nat Nat).setMany [(2, 2), (3, 3), (4, 4)]).entries :=
  ⟨(negative_maxSize_unbounded (-2) (by decide)).1,
   (negative_maxSize_unbounded (-2) (by decide)).2.1 [(7, 7)] 3,
   (negative_maxSize_unbounded (-2) (by decide)).2.2.1 ⟨[(1, 1), (2, 2)], 5⟩,
   (negative_maxSize_unbounded (-2) (by decide)).2.2.2 ⟨[(1, 1)], -2⟩ (by decide)
     [(2, 2), (3, 3), (4, 4)] 1 (by decide)⟩

/-- Claim C10: `set` of a present key never shrinks the cache — when
`size ≤ capacity` or `capacity ≤ 0`, updating an existing key keeps the size,
evicts nothing (the resulting entries are exactly the old ones with that key
moved to the end carrying the new value), and every other key keeps its
value. -/
theorem set_existing_key_frame :
    ∀ (c : Cache K V) (k : K) (v : V),
      (keysOf c.entries).Nodup →
      ((c.size : Int) ≤ c.maxSize ∨ c.maxSize ≤ 0) →
      k ∈ keysOf c.entries →
      (c.set k v).size = c.size ∧
      (c.set k v).entries = eraseKey k c.entries ++ [(k, v)] ∧
      (∀ x, x ≠ k → lookup? x (c.set k v).entries = lookup? x c.entries) := by
  intro c k v hn hcap hk
  have hlen : (eraseKey k c.entries ++ [(k, v)]).length = c.entries.length := by
    have := length_eraseKey_of_mem k c.entries hk
    simp
    omega
  have hform : (c.set k v).entries = eraseKey k c.entries ++ [(k, v)] := by
    rw [set_eq_setSpec_of_nodup c k v hn]
    simp only [setSpec, if_pos hk]
    rw [if_neg ?_]
    intro hcon
    rw [hlen] at hcon
    rcases hcap with h | h
    · simp only [Cache.size] at h
      omega
    · omega
  refine ⟨?_, hform, ?_⟩
  · simp only [Cache.size, hform, hlen]
  · intro x hx
    rw [hform, lookup?_append_last_ne x k v _ hx, lookup?_eraseKey_ne x k _ hx]

/-- Concrete instance of claim C10: updating key 1 in a full capacity-2 cache
keeps both entries, with key 1 moved to the end and key 2 untouched. -/
theorem set_existing_key_frame_witness :
    ((⟨[(1, 1), (2, 2)], 2⟩ : Cache Nat Nat).set 1 9).size = 2 ∧
    ((⟨[(1, 1), (2, 2)], 2⟩ : Cache Nat Nat).set 1 9).entries =
      eraseKey 1 [(1, 1), (2, 2)] ++ [(1, 9)] ∧
    lookup? 2 ((⟨[(1, 1), (2, 2)], 2⟩ : Cache Nat Nat).set 1 9).entries =
      lookup? 2 ([(1, 1), (2, 2)] : List (Nat × Nat)) := by
  have h := set_existing_key_frame ⟨[(1, 1), (2, 2)], 2⟩ 1 9 (by decide)
    (Or.inl (by decide)) (by decide)
  exact ⟨h.1, h.2.1, h.2.2 2 (by decide)⟩

/-- Claim C7 fails on the code: construction with capacity 1 and two initial
entries never produces the claimed cache holding the last entry — on CPython
the construction raises `AttributeError` before any cache exists
(`OrderedDict.__init__` dispatches each insertion through the overridden
`__setitem__`, which reads the not-yet-assigned `_maxSize`), so the claimed
insert-then-evict behaviour never happens; and the only path that does
complete, `__init__` without initial contents, contains no eviction loop at
all (`_maxSize` is assigned directly, bypassing the evicting setter). -/
theorem init_with_contents_fails :
    Cache.init 1 ([(0, 0), (1, 1)] : List (Nat × Nat)) = none ∧
    Cache.init 1 ([] : List (Nat × Nat)) = some ⟨[], 1⟩ := by
  constructor
  · decide
  · decide

end GdpcLib
